import Mathlib

/-!
Verification development for the incremental-fitting and peak-statistics
callbacks (`bluesky/callbacks/fitting.py`).

The Python source is shallowly embedded:

* scalar values carried by event documents are modelled as rationals (`ℚ`);
* a Python `dict` keyed by strings is modelled as an association list
  `List (String × α)` with first-match lookup;
* code that can raise is modelled in `Except PyError`;
* the external lmfit model is opaque: we keep its configuration
  (`param_names`, the independent-variable role names) and model
  `model.fit(ydata, **kwargs)` by recording the arrays it was invoked on,
  which is all the coordinator itself depends on.

Ghost observation fields (`fits`, `warnings`) record, respectively, the
sample count at each invocation of the external fit capability and the
number of insufficient-data warnings emitted; they are write-only
instrumentation and never influence control flow.
-/

namespace Fitting

/-- Python exceptions that the embedded code can raise. -/
inductive PyError where
  | keyError
  | valueError
  | zeroDivisionError
  deriving Repr, DecidableEq

/-- First-match lookup in an association list, i.e. `k in d` / `d[k]`
combined: `none` models `k not in d`. -/
def lookup (d : List (String × ℚ)) (k : String) : Option ℚ :=
  match d with
  | [] => none
  | (k', v) :: rest => if k' = k then some v else lookup rest k

/-- `d[k]` on a Python dict: raises `KeyError` when the key is absent. -/
def getKey (d : List (String × ℚ)) (k : String) : Except PyError ℚ :=
  match lookup d k with
  | some v => .ok v
  | none => .error .keyError

/-- Static configuration of a `LiveFit` instance: the opaque model's
`param_names` and `independent_vars` role names, the dependent-variable
field name `y`, the role-to-field binding `independent_vars`, and
`update_every` (`none` models Python `None`). -/
structure LFConfig where
  paramNames : List String
  y : String
  independentVars : List (String × String)
  updateEvery : Option Nat
  deriving Repr, DecidableEq

/-- Mutable state of a `LiveFit` instance.  `result` stores the arguments
of the most recent successful `model.fit` call (the fit itself is opaque);
`stale` is the private `__stale` flag.  `fits` and `warnings` are ghost
observations. -/
structure LFState where
  ydata : List ℚ
  independentVarsData : List (String × List ℚ)
  stale : Bool
  result : Option (List ℚ × List (String × List ℚ))
  fits : List Nat
  warnings : Nat
  deriving Repr, DecidableEq

/-- `LiveFit._reset`: clear the result, the staleness flag, `ydata`, and
every per-role series (keys are kept, values cleared). -/
def reset (s : LFState) : LFState :=
  { s with
    result := none
    stale := false
    ydata := []
    independentVarsData := s.independentVarsData.map (fun kv => (kv.1, [])) }

/-- State produced by `LiveFit.__init__` (which runs the
`independent_vars` setter): one empty series per bound role. -/
def initState (cfg : LFConfig) : LFState :=
  { ydata := []
    independentVarsData := cfg.independentVars.map (fun kv => (kv.1, []))
    stale := false
    result := none
    fits := []
    warnings := 0 }

/-- The `independent_vars` setter: validate that the binding's key set
equals the model's role set, rebuild the per-role series fresh, and reset. -/
def rebind (modelRoles : List String) (val : List (String × String))
    (s : LFState) : Except PyError LFState :=
  if (val.map Prod.fst).toFinset = modelRoles.toFinset then
    .ok (reset { s with independentVarsData := val.map (fun kv => (kv.1, [])) })
  else
    .error .valueError

/-- `LiveFit.start`: reset all accumulated state. -/
def startDoc (s : LFState) : LFState := reset s

/-- The loop body of `LiveFit.update_caches`: for each tracked role,
append `independent_vars[k]` (a Python dict lookup, which raises
`KeyError` if the role is missing from the supplied mapping). -/
def appendIdv (idv : List (String × ℚ)) :
    List (String × List ℚ) → Except PyError (List (String × List ℚ))
  | [] => .ok []
  | (k, v) :: rest => do
    let x ← getKey idv k
    let rest' ← appendIdv idv rest
    .ok ((k, v ++ [x]) :: rest')

/-- `LiveFit.update_caches`: append the dependent value to `ydata` and one
value to each tracked independent-variable series. -/
def update_caches (y : ℚ) (idv : List (String × ℚ)) (s : LFState) :
    Except PyError LFState := do
  let d ← appendIdv idv s.independentVarsData
  .ok { s with ydata := s.ydata ++ [y], independentVarsData := d }

/-- `LiveFit.update_fit`: with fewer samples than free parameters, warn and
leave everything (result included) untouched; otherwise invoke the opaque
`model.fit` on the full accumulated arrays, store the result, and clear
the staleness flag.  The ghost `fits` field records the sample count of
each `model.fit` invocation. -/
def update_fit (cfg : LFConfig) (s : LFState) : LFState :=
  let N := cfg.paramNames.length
  if s.ydata.length < N then
    { s with warnings := s.warnings + 1 }
  else
    { s with
      result := some (s.ydata, s.independentVarsData)
      stale := false
      fits := s.fits ++ [s.ydata.length] }

/-- The cadence policy (the tail of `LiveFit.event`, lines 87–95): with
`i = len(self.ydata)` and `N = len(self.model.param_names)`, wait while
`i < N`, fit when `i == N`, and otherwise fit when `(i - 1) %
self.update_every == 0`.  Python evaluates `(i == N) or ((i - 1) %
self.update_every == 0)` left to right, so the modulus — and its
`ZeroDivisionError` when `update_every == 0` — is only reached when
`i ≠ N`. -/
def cadence (cfg : LFConfig) (s : LFState) : Except PyError LFState :=
  match cfg.updateEvery with
  | none => .ok s
  | some u =>
    let i := s.ydata.length
    let N := cfg.paramNames.length
    if i < N then
      .ok s
    else if i = N then
      .ok (update_fit cfg s)
    else if u = 0 then
      .error .zeroDivisionError
    else if (i - 1) % u = 0 then
      .ok (update_fit cfg s)
    else
      .ok s

/-- `LiveFit.event`: skip documents lacking the dependent field; otherwise
collect the bound independent values (`doc['data'][v]`, raising `KeyError`
on a missing field), cache everything, mark stale, and apply the cadence
policy. -/
def eventDoc (cfg : LFConfig) (doc : List (String × ℚ)) (s : LFState) :
    Except PyError LFState :=
  match lookup doc cfg.y with
  | none => .ok s
  | some y => do
    let idv ← cfg.independentVars.mapM (fun kv => do
      let x ← getKey doc kv.2
      pure (kv.1, x))
    let s ← update_caches y idv s
    cadence cfg { s with stale := true }

/-- `LiveFit.stop`: if the data are stale, perform one final fit. -/
def stopDoc (cfg : LFConfig) (s : LFState) : LFState :=
  if s.stale then update_fit cfg s else s

/-- A document delivered to the coordinator. -/
inductive LFDoc where
  | start
  | event (data : List (String × ℚ))
  | stop
  deriving Repr, DecidableEq

/-- One document-processing step. -/
def step (cfg : LFConfig) (s : LFState) : LFDoc → Except PyError LFState
  | .start => .ok (startDoc s)
  | .event d => eventDoc cfg d s
  | .stop => .ok (stopDoc cfg s)

/-- Process a document stream in order. -/
def runDocs (cfg : LFConfig) (docs : List LFDoc) (s : LFState) :
    Except PyError LFState :=
  match docs with
  | [] => .ok s
  | d :: rest => do runDocs cfg rest (← step cfg s d)

/-- A document qualifies when it carries the dependent field and every
bound independent-variable field. -/
def qualifies (cfg : LFConfig) (d : List (String × ℚ)) : Prop :=
  (lookup d cfg.y).isSome = true ∧
    ∀ kv ∈ cfg.independentVars, (lookup d kv.2).isSome = true

instance (cfg : LFConfig) (d : List (String × ℚ)) :
    Decidable (qualifies cfg d) := by
  unfold qualifies; infer_instance

/-- Tracked-series well-formedness: the per-role series carry exactly the
bound role names, in order. -/
def WFKeys (cfg : LFConfig) (s : LFState) : Prop :=
  s.independentVarsData.map Prod.fst = cfg.independentVars.map Prod.fst

/-- Equal-length invariant: every tracked series is as long as `ydata`. -/
def EqLen (s : LFState) : Prop :=
  ∀ kv ∈ s.independentVarsData, kv.2.length = s.ydata.length

instance (s : LFState) : Decidable (EqLen s) := by
  unfold EqLen; infer_instance

/-! ## Peak statistics (`center_of_mass`, `PeakStats._calc_stats`,
`PeakStats.__getitem__`) -/

/-- `np.mean`: sum over length.  (The empty case, nan in numpy, is outside
the modelled domain; `ℚ` division by zero yields 0.) -/
def mean (l : List ℚ) : ℚ := l.sum / l.length

/-- `np.max` of a 1-D array. -/
def listMax (l : List ℚ) : ℚ := l.foldl max (l.headD 0)

/-- `np.min` of a 1-D array. -/
def listMin (l : List ℚ) : ℚ := l.foldl min (l.headD 0)

/-- `np.argmin`: index of the first occurrence of the minimum. -/
def argmin (y : List ℚ) : Nat :=
  (List.range y.length).foldl
    (fun best i => if y.getD i 0 < y.getD best 0 then i else best) 0

/-- `np.argmax`: index of the first occurrence of the maximum. -/
def argmax (y : List ℚ) : Nat :=
  (List.range y.length).foldl
    (fun best i => if y.getD best 0 < y.getD i 0 then i else best) 0

/-- `center_of_mass` (vendored from scipy), specialised to the 1-D,
`labels=None` path used by `PeakStats`: `normalizer = np.sum(input)`,
`grids[0] = np.arange(len(input))`, and the single coordinate is
`np.sum(input * grids[0]) / normalizer`. -/
def center_of_mass (input : List ℚ) : ℚ :=
  let normalizer := input.sum
  let grid := (List.range input.length).map (Nat.cast : ℕ → ℚ)
  (List.zipWith (· * ·) input grid).sum / normalizer

/-- `np.interp(t, np.arange(len(x)), x)`: piecewise-linear interpolation of
the index-to-x correspondence, clamped at both ends. -/
def interpGrid (t : ℚ) (x : List ℚ) : ℚ :=
  if t ≤ 0 then x.headD 0
  else if (x.length : ℚ) - 1 ≤ t then x.getLastD 0
  else
    let i := (Int.floor t).toNat
    x.getD i 0 + (t - i) * (x.getD (i + 1) 0 - x.getD i 0)

/-- The `fields` dict handed to `_calc_stats` and the `Stats` namedtuple
built from it.  `none` models the "unset" (`None`) value; `lin_bkg` is the
key written by `_calc_stats`, while `lin_bnk` is the (distinct) key
declared in `PeakStats._stats_fields`. -/
structure Stats where
  min : Option (ℚ × ℚ) := none
  max : Option (ℚ × ℚ) := none
  com : Option ℚ := none
  cen : Option ℚ := none
  crossings : Option (List ℚ) := none
  fwhm : Option ℚ := none
  lin_bkg : Option (ℚ × ℚ) := none
  lin_bnk : Option (ℚ × ℚ) := none
  deriving Repr, DecidableEq

/-- The all-`None` `fields` dict (`copy.deepcopy(self._stats_fields)`). -/
def emptyStats : Stats := {}

/-- Slope and intercept of the background line fitted through the averages
of the first and last `e` points (`_calc_stats` lines 244–251).  Python's
`x[-e:]` for `e ≥ 1` is the last `min e len` elements, matching
`drop (len - e)`; `e = 0` (where numpy means an empty slice to nan) is
outside the modelled domain. -/
def bgLine (x y : List ℚ) (e : Nat) : ℚ × ℚ :=
  let left_x := mean (x.take e)
  let left_y := mean (y.take e)
  let right_x := mean (x.drop (x.length - e))
  let right_y := mean (y.drop (y.length - e))
  let m := (right_y - left_y) / (right_x - left_x)
  (m, left_y - m * left_x)

/-- `y = y - (m * x + b)` when an edge count is configured, else `y`. -/
def removeBg (x y : List ℚ) : Option Nat → List ℚ
  | none => y
  | some e =>
    let mb := bgLine x y e
    List.zipWith (fun yi xi => yi - (mb.1 * xi + mb.2)) y x

/-- `mid = (np.max(y) + np.min(y)) / 2`. -/
def midLine (y : List ℚ) : ℚ := (listMax y + listMin y) / 2

/-- `np.where(np.diff((y > mid).astype(int)))[0]`: the indices `i` where
the strict predicate `y > mid` differs between positions `i` and `i+1`. -/
def crossIdx (y : List ℚ) (mid : ℚ) : List Nat :=
  (List.range (y.length - 1)).filter
    (fun i => decide (mid < y.getD (i + 1) 0) ≠ decide (mid < y.getD i 0))

/-- The `_cen_list` loop: for each crossing index `cr`, interpolate the
zero of the line through `(x[cr], y[cr]-mid)` and `(x[cr+1], y[cr+1]-mid)`. -/
def cenList (x y : List ℚ) (mid : ℚ) : List ℚ :=
  (crossIdx y mid).map (fun cr =>
    let dx := x.getD (cr + 1) 0 - x.getD cr 0
    let dy := (y.getD (cr + 1) 0 - mid) - (y.getD cr 0 - mid)
    let m := dy / dx
    (-(y.getD cr 0 - mid) / m) + x.getD cr 0)

/-- `PeakStats._calc_stats`: optional linear background removal (recording
the line under the `lin_bkg` key), extrema at stable argmin/argmax,
x-domain centroid, half-max crossings, `cen` as their mean, and `fwhm` as
the absolute distance between last and first crossing when at least two
exist. -/
def calcStats (x y : List ℚ) (fields : Stats) (edge_count : Option Nat) :
    Stats :=
  let fields :=
    match edge_count with
    | none => fields
    | some e => { fields with lin_bkg := some (bgLine x y e) }
  let y := removeBg x y edge_count
  let fields := { fields with
    min := some (x.getD (argmin y) 0, y.getD (argmin y) 0)
    max := some (x.getD (argmax y) 0, y.getD (argmax y) 0)
    com := some (interpGrid (center_of_mass y) x) }
  let cl := cenList x y (midLine y)
  if cl = [] then fields
  else
    let fields := { fields with cen := some (mean cl), crossings := some cl }
    if 2 ≤ cl.length then
      { fields with fwhm := some |cl.getLastD 0 - cl.headD 0| }
    else fields

/-- The keys of `PeakStats._stats_fields` as written in `__init__`
(note the misspelt last key). -/
def statsFieldKeys : List String :=
  ["min", "max", "com", "cen", "crossings", "fwhm", "lin_bnk"]

/-- A value held by a stats attribute (heterogeneous field types). -/
inductive StatVal where
  | pt (x y : ℚ)
  | num (q : ℚ)
  | arr (l : List ℚ)
  | line (m b : ℚ)
  deriving Repr, DecidableEq

/-- `getattr(self, key)` for the stats attributes that `compute` copies
onto the instance (one per `_stats_fields` key). -/
def Stats.attr (s : Stats) : String → Option StatVal
  | "min" => s.min.map (fun p => .pt p.1 p.2)
  | "max" => s.max.map (fun p => .pt p.1 p.2)
  | "com" => s.com.map .num
  | "cen" => s.cen.map .num
  | "crossings" => s.crossings.map .arr
  | "fwhm" => s.fwhm.map .num
  | "lin_bnk" => s.lin_bnk.map (fun p => .line p.1 p.2)
  | _ => none

/-- `PeakStats.__getitem__`: key lookup guarded by membership in
`_stats_fields.keys()`; unknown keys raise `KeyError`. -/
def getItem (s : Stats) (key : String) : Except PyError (Option StatVal) :=
  if key ∈ statsFieldKeys then .ok (s.attr key) else .error .keyError

/-! ## Verification-side descriptions

Pure descriptions of intermediate states of the embedded code, used to
state and prove the theorems below.  They are not part of the source
translation. -/

/-- The independent-variable mapping a qualifying event collects:
one `(role, doc['data'][field])` pair per binding entry. -/
def idvOf (cfg : LFConfig) (d : List (String × ℚ)) : List (String × ℚ) :=
  cfg.independentVars.map (fun kv => (kv.1, (lookup d kv.2).getD 0))

/-- The state right after a qualifying event has cached its values and
set the staleness flag, before the cadence policy runs. -/
def cached (cfg : LFConfig) (d : List (String × ℚ)) (s : LFState) : LFState :=
  { s with
    ydata := s.ydata ++ [(lookup d cfg.y).getD 0]
    independentVarsData := s.independentVarsData.map
      (fun kv => (kv.1, kv.2 ++ [(lookup (idvOf cfg d) kv.1).getD 0]))
    stale := true }

/-- Every tracked series is keyed by one of the bound role names. -/
def KeysSub (cfg : LFConfig) (s : LFState) : Prop :=
  ∀ kv ∈ s.independentVarsData, kv.1 ∈ cfg.independentVars.map Prod.fst

instance (cfg : LFConfig) (s : LFState) : Decidable (KeysSub cfg s) := by
  unfold KeysSub; infer_instance

/-- Whether the cadence policy triggers a fit at sample count `i`
(for `update_every = k`): at least `N` samples, and either exactly `N`
or `(i - 1) % k == 0`. -/
def fires (N k i : Nat) : Bool :=
  N ≤ i && (i == N || (i - 1) % k == 0)

/-- Sample counts at which fits occur during `n` further qualifying
events starting from sample count `c`. -/
def schedFrom (N k : Nat) (c : Nat) : Nat → List Nat
  | 0 => []
  | n + 1 =>
    (if fires N k (c + 1) then [c + 1] else []) ++ schedFrom N k (c + 1) n

/-- The stored result is up to date with the accumulated data (or there
is none yet): either the data are marked stale, or the result holds
exactly the current arrays, or nothing has been accumulated. -/
def ResultCurrent (s : LFState) : Prop :=
  s.stale = true ∨ s.result = some (s.ydata, s.independentVarsData) ∨
    s.ydata = []

/-- A concrete configuration: a two-parameter model with one independent
variable bound to the `motor` field, refitting every 2 points. -/
def cfgA : LFConfig :=
  { paramNames := ["a", "b"]
    y := "det"
    independentVars := [("x", "motor")]
    updateEvery := some 2 }

/-- Four qualifying event payloads for `cfgA`. -/
def docsA : List (List (String × ℚ)) :=
  [[("motor", 0), ("det", 1)], [("motor", 1), ("det", 2)],
   [("motor", 2), ("det", 3)], [("motor", 3), ("det", 4)]]

/-- `cfgA` with `update_every = 0`. -/
def cfgZ : LFConfig := { cfgA with updateEvery := some 0 }

/-- A mid-run state for `cfgZ`: two samples already accumulated. -/
def sZ : LFState :=
  { ydata := [1, 2]
    independentVarsData := [("x", [0, 1])]
    stale := false
    result := some ([1, 2], [("x", [0, 1])])
    fits := [2]
    warnings := 0 }

/-- The state of `cfgA` after its first qualifying event. -/
def sA1 : LFState :=
  { ydata := [1]
    independentVarsData := [("x", [0])]
    stale := true
    result := none
    fits := []
    warnings := 0 }

/-- The state of `cfgA` after a full run `start`, `docsA`, `stop`. -/
def sA5 : LFState :=
  { ydata := [1, 2, 3, 4]
    independentVarsData := [("x", [0, 1, 2, 3])]
    stale := false
    result := some ([1, 2, 3, 4], [("x", [0, 1, 2, 3])])
    fits := [2, 3, 4]
    warnings := 0 }

/-! ## Supporting lemmas -/

theorem lookup_isSome_iff (d : List (String × ℚ)) (k : String) :
    (lookup d k).isSome = true ↔ k ∈ d.map Prod.fst := by
  induction d with
  | nil => simp [lookup]
  | cons hd tl ih =>
    obtain ⟨k', v⟩ := hd
    by_cases h : k' = k
    · subst h; simp [lookup]
    · simp [lookup, h, ih, Ne.symm h]

theorem getKey_ok {d : List (String × ℚ)} {k : String}
    (h : (lookup d k).isSome = true) :
    getKey d k = .ok ((lookup d k).getD 0) := by
  unfold getKey
  obtain ⟨v, hv⟩ := Option.isSome_iff_exists.mp h
  rw [hv]; rfl

theorem getKey_err {d : List (String × ℚ)} {k : String}
    (h : lookup d k = none) :
    getKey d k = .error .keyError := by
  unfold getKey; rw [h]

theorem idv_mapM_ok (d : List (String × ℚ)) (l : List (String × String))
    (h : ∀ kv ∈ l, (lookup d kv.2).isSome = true) :
    (l.mapM (fun kv => do
      let x ← getKey d kv.2
      pure (kv.1, x)) : Except PyError (List (String × ℚ))) =
      .ok (l.map (fun kv => (kv.1, (lookup d kv.2).getD 0))) := by
  induction l with
  | nil => rfl
  | cons hd tl ih =>
    rw [List.mapM_cons]
    rw [getKey_ok (h hd (by simp)), ih (fun kv hkv => h kv (by simp [hkv]))]
    rfl

theorem idv_mapM_err (d : List (String × ℚ)) (l : List (String × String))
    (h : ∃ kv ∈ l, lookup d kv.2 = none) :
    (l.mapM (fun kv => do
      let x ← getKey d kv.2
      pure (kv.1, x)) : Except PyError (List (String × ℚ))) =
      .error .keyError := by
  induction l with
  | nil => simp at h
  | cons hd tl ih =>
    rw [List.mapM_cons]
    rcases h with ⟨kv, hmem, hnone⟩
    rcases List.mem_cons.mp hmem with heq | hmem'
    · subst heq
      rw [getKey_err hnone]
      rfl
    · cases hlk : lookup d hd.2 with
      | none => rw [getKey_err hlk]; rfl
      | some v =>
        rw [getKey_ok (by rw [hlk]; rfl)]
        rw [ih ⟨kv, hmem', hnone⟩]
        rfl

theorem appendIdv_ok (idv : List (String × ℚ)) (l : List (String × List ℚ))
    (h : ∀ kv ∈ l, kv.1 ∈ idv.map Prod.fst) :
    appendIdv idv l =
      .ok (l.map (fun kv => (kv.1, kv.2 ++ [(lookup idv kv.1).getD 0]))) := by
  induction l with
  | nil => rfl
  | cons hd tl ih =>
    obtain ⟨k, v⟩ := hd
    unfold appendIdv
    rw [getKey_ok ((lookup_isSome_iff idv k).mpr (h (k, v) (by simp)))]
    rw [ih (fun kv hkv => h kv (by simp [hkv]))]
    rfl

theorem idvOf_fst (cfg : LFConfig) (d : List (String × ℚ)) :
    (idvOf cfg d).map Prod.fst = cfg.independentVars.map Prod.fst := by
  simp [idvOf]

theorem eventDoc_qual (cfg : LFConfig) (d : List (String × ℚ)) (s : LFState)
    (hkeys : KeysSub cfg s) (hq : qualifies cfg d) :
    eventDoc cfg d s = cadence cfg (cached cfg d s) := by
  obtain ⟨hy, hidv⟩ := hq
  obtain ⟨y, hy'⟩ := Option.isSome_iff_exists.mp hy
  unfold eventDoc
  rw [hy', idv_mapM_ok d cfg.independentVars hidv]
  show update_caches y (idvOf cfg d) s >>= _ = _
  unfold update_caches
  rw [appendIdv_ok (idvOf cfg d) s.independentVarsData
    (fun kv hkv => by rw [idvOf_fst]; exact hkeys kv hkv)]
  show cadence cfg _ = cadence cfg _
  congr 1
  simp [cached, hy']

theorem update_fit_of_ge (cfg : LFConfig) (s : LFState)
    (h : cfg.paramNames.length ≤ s.ydata.length) :
    update_fit cfg s =
      { s with
        result := some (s.ydata, s.independentVarsData)
        stale := false
        fits := s.fits ++ [s.ydata.length] } := by
  simp [update_fit, Nat.not_lt.mpr h]

theorem cadence_ok_shape (cfg : LFConfig) (k : Nat)
    (hk : cfg.updateEvery = some k) (s : LFState)
    (hsafe : 1 ≤ k ∨ s.ydata.length ≤ cfg.paramNames.length) :
    cadence cfg s =
      .ok (if fires cfg.paramNames.length k s.ydata.length
        then update_fit cfg s else s) := by
  unfold cadence
  rw [hk]
  set i := s.ydata.length with hi
  set N := cfg.paramNames.length with hN
  by_cases hlt : i < N
  · have : fires N k i = false := by
      simp [fires]
      omega
    simp [hlt, this]
  · by_cases heq : i = N
    · have : fires N k i = true := by
        simp [fires]
        omega
      rw [heq] at this
      simp [hlt, heq, this]
    · have hk1 : 1 ≤ k := by
        rcases hsafe with h1 | h2
        · exact h1
        · omega
      have hk0 : ¬ k = 0 := by omega
      by_cases hmod : (i - 1) % k = 0
      · have : fires N k i = true := by
          simp [fires]
          constructor
          · omega
          · right; exact hmod
        simp [hlt, heq, hk0, hmod, this]
      · have : fires N k i = false := by
          simp [fires]
          intro _
          constructor
          · omega
          · exact hmod
        simp [hlt, heq, hk0, hmod, this]

theorem cadence_ok_cases {cfg : LFConfig} {s t : LFState}
    (h : cadence cfg s = .ok t) :
    t = s ∨ t = update_fit cfg s := by
  unfold cadence at h
  cases hu : cfg.updateEvery with
  | none => rw [hu] at h; exact Or.inl (Except.ok.inj h).symm
  | some u =>
    rw [hu] at h
    dsimp at h
    split at h
    · exact Or.inl (Except.ok.inj h).symm
    · split at h
      · exact Or.inr (Except.ok.inj h).symm
      · split at h
        · cases h
        · split at h
          · exact Or.inr (Except.ok.inj h).symm
          · exact Or.inl (Except.ok.inj h).symm

theorem cached_shape (cfg : LFConfig) (d : List (String × ℚ)) (s : LFState) :
    (cached cfg d s).ydata.length = s.ydata.length + 1 ∧
    (cached cfg d s).independentVarsData.map Prod.fst =
      s.independentVarsData.map Prod.fst ∧
    (cached cfg d s).stale = true ∧
    (cached cfg d s).fits = s.fits ∧
    (cached cfg d s).warnings = s.warnings ∧
    (cached cfg d s).result = s.result := by
  simp [cached]

theorem keysSub_of_fst_eq {cfg : LFConfig} {s t : LFState}
    (h : t.independentVarsData.map Prod.fst =
      s.independentVarsData.map Prod.fst)
    (hs : KeysSub cfg s) : KeysSub cfg t := by
  intro kv hkv
  have hmem : kv.1 ∈ t.independentVarsData.map Prod.fst :=
    List.mem_map_of_mem Prod.fst hkv
  rw [h] at hmem
  obtain ⟨kv', hkv', heq⟩ := List.mem_map.mp hmem
  exact heq ▸ hs kv' hkv'

theorem update_fit_data (cfg : LFConfig) (s : LFState) :
    (update_fit cfg s).independentVarsData = s.independentVarsData ∧
    (update_fit cfg s).ydata = s.ydata := by
  unfold update_fit
  by_cases h : s.ydata.length < cfg.paramNames.length
  · simp [h]
  · simp [h]

theorem runDocs_nil (cfg : LFConfig) (s : LFState) :
    runDocs cfg [] s = .ok s := rfl

theorem runDocs_cons (cfg : LFConfig) (dc : LFDoc) (l : List LFDoc)
    (s : LFState) :
    runDocs cfg (dc :: l) s = step cfg s dc >>= runDocs cfg l := rfl

theorem ok_bind {α β : Type} (a : α) (f : α → Except PyError β) :
    (Except.ok a >>= f : Except PyError β) = f a := rfl

theorem runQual_fits (cfg : LFConfig) (k : Nat)
    (hk : cfg.updateEvery = some k) (docs : List (List (String × ℚ)))
    (s : LFState) (hq : ∀ d ∈ docs, qualifies cfg d) (hkeys : KeysSub cfg s)
    (hsafe : 1 ≤ k ∨ s.ydata.length + docs.length ≤ cfg.paramNames.length) :
    ∃ t, runDocs cfg (docs.map LFDoc.event) s = .ok t ∧
      t.ydata.length = s.ydata.length + docs.length ∧
      t.fits = s.fits ++
        schedFrom cfg.paramNames.length k s.ydata.length docs.length ∧
      KeysSub cfg t := by
  induction docs generalizing s with
  | nil =>
    exact ⟨s, rfl, by simp, by simp [schedFrom], hkeys⟩
  | cons d rest ih =>
    rw [List.map_cons, runDocs_cons]
    rw [show step cfg s (.event d) = eventDoc cfg d s from rfl]
    rw [eventDoc_qual cfg d s hkeys (hq d (by simp))]
    rw [cadence_ok_shape cfg k hk (cached cfg d s)
      (by rcases hsafe with h | h
          · exact Or.inl h
          · right
            rw [(cached_shape cfg d s).1]
            simp at h ⊢
            omega)]
    rw [ok_bind]
    obtain ⟨hlen, hfst, hstale, hfits, hwarn, hres⟩ := cached_shape cfg d s
    by_cases hfire : fires cfg.paramNames.length k (s.ydata.length + 1)
    · have hge : cfg.paramNames.length ≤ (cached cfg d s).ydata.length := by
        rw [hlen]
        have h' := hfire
        simp [fires] at h'
        exact h'.1
      rw [hlen, if_pos hfire]
      have hXdata := update_fit_data cfg (cached cfg d s)
      have hXlen : (update_fit cfg (cached cfg d s)).ydata.length =
          s.ydata.length + 1 := by rw [hXdata.2]; exact hlen
      have hXfits : (update_fit cfg (cached cfg d s)).fits =
          s.fits ++ [s.ydata.length + 1] := by
        rw [update_fit_of_ge cfg _ hge]
        simp [hfits, hlen]
      have hXkeys : KeysSub cfg (update_fit cfg (cached cfg d s)) :=
        keysSub_of_fst_eq (by rw [hXdata.1, hfst]) hkeys
      obtain ⟨t, hrun, htlen, htfits, htkeys⟩ :=
        ih (update_fit cfg (cached cfg d s))
          (fun d' hd' => hq d' (by simp [hd'])) hXkeys
          (by rcases hsafe with h | h
              · exact Or.inl h
              · right
                rw [hXlen]
                simp at h
                omega)
      refine ⟨t, hrun, ?_, ?_, htkeys⟩
      · rw [htlen, hXlen]
        simp
        omega
      · rw [htfits, hXfits, hXlen]
        show _ = s.fits ++ schedFrom cfg.paramNames.length k s.ydata.length (rest.length + 1)
        rw [show schedFrom cfg.paramNames.length k s.ydata.length (rest.length + 1) =
          (if fires cfg.paramNames.length k (s.ydata.length + 1)
            then [s.ydata.length + 1] else []) ++
            schedFrom cfg.paramNames.length k (s.ydata.length + 1) rest.length from rfl]
        simp [hfire]
    · rw [hlen, if_neg hfire]
      have hCkeys : KeysSub cfg (cached cfg d s) :=
        keysSub_of_fst_eq hfst hkeys
      obtain ⟨t, hrun, htlen, htfits, htkeys⟩ :=
        ih (cached cfg d s)
          (fun d' hd' => hq d' (by simp [hd'])) hCkeys
          (by rcases hsafe with h | h
              · exact Or.inl h
              · right
                rw [hlen]
                simp at h
                omega)
      refine ⟨t, hrun, ?_, ?_, htkeys⟩
      · rw [htlen, hlen]
        simp
        omega
      · rw [htfits, hfits, hlen]
        show _ = s.fits ++ schedFrom cfg.paramNames.length k s.ydata.length (rest.length + 1)
        rw [show schedFrom cfg.paramNames.length k s.ydata.length (rest.length + 1) =
          (if fires cfg.paramNames.length k (s.ydata.length + 1)
            then [s.ydata.length + 1] else []) ++
            schedFrom cfg.paramNames.length k (s.ydata.length + 1) rest.length from rfl]
        simp [hfire]

theorem schedFrom_eq_filter (N k : Nat) (c n : Nat) :
    schedFrom N k c n =
      ((List.range n).map (fun j => c + j + 1)).filter (fires N k) := by
  induction n generalizing c with
  | zero => rfl
  | succ n ih =>
    rw [show schedFrom N k c (n + 1) =
      (if fires N k (c + 1) then [c + 1] else []) ++
        schedFrom N k (c + 1) n from rfl]
    rw [List.range_succ_eq_map, List.map_cons, List.filter_cons, List.map_map]
    rw [ih (c + 1)]
    have harg : ((fun j => c + j + 1) ∘ Nat.succ) = (fun j => c + 1 + j + 1) := by
      funext j
      simp [Function.comp]
      omega
    rw [harg]
    by_cases hf : fires N k (c + 1)
    · simp [hf]
    · simp [hf]

theorem schedFrom_below (N k : Nat) (c n : Nat) (h : c + n ≤ N) :
    schedFrom N k c n = if c + n = N ∧ 1 ≤ n then [N] else [] := by
  induction n generalizing c with
  | zero => simp [schedFrom]
  | succ n ih =>
    rw [show schedFrom N k c (n + 1) =
      (if fires N k (c + 1) then [c + 1] else []) ++
        schedFrom N k (c + 1) n from rfl]
    by_cases hc : c + 1 = N
    · have hn : n = 0 := by omega
      subst hn
      have hf : fires N k (c + 1) = true := by
        simp [fires]
        constructor
        · omega
        · exact Or.inl hc
      rw [hc] at hf
      simp [hf, schedFrom, hc]
    · have hf : fires N k (c + 1) = false := by
        simp [fires]
        intro hle
        omega
      rw [ih (c + 1) (by omega)]
      simp only [hf, Bool.false_eq_true, if_false, List.nil_append]
      rcases Nat.eq_zero_or_pos n with hn | hn
      · subst hn
        simp [hc]
      · have hiff : (c + 1 + n = N ∧ 1 ≤ n) ↔ (c + (n + 1) = N ∧ 1 ≤ n + 1) := by
          constructor
          · rintro ⟨a, b⟩
            exact ⟨by omega, by omega⟩
          · rintro ⟨a, b⟩
            exact ⟨by omega, hn⟩
        rw [if_congr hiff rfl rfl]

theorem keysSub_init (cfg : LFConfig) : KeysSub cfg (initState cfg) := by
  intro kv hkv
  have hkv' : kv ∈ cfg.independentVars.map (fun kv => (kv.1, ([] : List ℚ))) :=
    hkv
  obtain ⟨kv', hm, heq⟩ := List.mem_map.mp hkv'
  rw [← heq]
  exact List.mem_map_of_mem Prod.fst hm

theorem update_fit_fits_cases (cfg : LFConfig) (s : LFState) :
    (update_fit cfg s).fits = s.fits ∨
      (update_fit cfg s).fits = s.fits ++ [s.ydata.length] ∧
        cfg.paramNames.length ≤ s.ydata.length := by
  unfold update_fit
  by_cases h : s.ydata.length < cfg.paramNames.length
  · left
    simp [h]
  · right
    exact ⟨by simp [h], by omega⟩

theorem cadence_fits_cases {cfg : LFConfig} {s t : LFState}
    (h : cadence cfg s = .ok t) :
    t.fits = s.fits ∨
      t.fits = s.fits ++ [s.ydata.length] ∧
        cfg.paramNames.length ≤ s.ydata.length := by
  rcases cadence_ok_cases h with h1 | h1
  · left
    rw [h1]
  · rw [h1]
    exact update_fit_fits_cases cfg s

theorem eventDoc_fits_cases {cfg : LFConfig} {d : List (String × ℚ)}
    {s t : LFState} (h : eventDoc cfg d s = .ok t) :
    t.fits = s.fits ∨
      ∃ c, t.fits = s.fits ++ [c] ∧ cfg.paramNames.length ≤ c := by
  unfold eventDoc at h
  cases hy : lookup d cfg.y with
  | none =>
    rw [hy] at h
    cases h
    left
    rfl
  | some y =>
    rw [hy] at h
    cases hmap : (cfg.independentVars.mapM (fun kv => do
        let x ← getKey d kv.2
        pure (kv.1, x)) : Except PyError (List (String × ℚ))) with
    | error e =>
      rw [hmap] at h
      cases h
    | ok idv =>
      rw [hmap] at h
      have h1 : (update_caches y idv s >>= fun s' =>
          cadence cfg { s' with stale := true }) = .ok t := h
      unfold update_caches at h1
      cases happ : appendIdv idv s.independentVarsData with
      | error e =>
        rw [happ] at h1
        cases h1
      | ok dat =>
        rw [happ] at h1
        have h2 : cadence cfg
            { ydata := s.ydata ++ [y], independentVarsData := dat,
              stale := true, result := s.result, fits := s.fits,
              warnings := s.warnings } = .ok t := h1
        rcases cadence_fits_cases h2 with h3 | ⟨h3, h4⟩
        · left
          simpa using h3
        · right
          exact ⟨_, by simpa using h3, by simpa using h4⟩

theorem step_fits_ge (cfg : LFConfig) (dc : LFDoc) {s t : LFState}
    (h : step cfg s dc = .ok t)
    (hs : ∀ m ∈ s.fits, cfg.paramNames.length ≤ m) :
    ∀ m ∈ t.fits, cfg.paramNames.length ≤ m := by
  cases dc with
  | start =>
    cases h
    simpa [startDoc, reset] using hs
  | event d =>
    rcases eventDoc_fits_cases h with h1 | ⟨c, h1, h2⟩
    · rw [h1]
      exact hs
    · rw [h1]
      intro m hm
      rcases List.mem_append.mp hm with hm | hm
      · exact hs m hm
      · rw [List.mem_singleton.mp hm]
        exact h2
  | stop =>
    cases h
    unfold stopDoc
    by_cases hst : s.stale = true
    · rw [if_pos hst]
      intro m hm
      rcases update_fit_fits_cases cfg s with h1 | ⟨h1, h2⟩
      · exact hs m (h1 ▸ hm)
      · rw [h1] at hm
        rcases List.mem_append.mp hm with hm | hm
        · exact hs m hm
        · rw [List.mem_singleton.mp hm]
          exact h2
    · rw [if_neg hst]
      exact hs

theorem runDocs_fits_ge (cfg : LFConfig) (docs : List LFDoc) {s t : LFState}
    (h : runDocs cfg docs s = .ok t)
    (hs : ∀ m ∈ s.fits, cfg.paramNames.length ≤ m) :
    ∀ m ∈ t.fits, cfg.paramNames.length ≤ m := by
  induction docs generalizing s with
  | nil =>
    cases h
    exact hs
  | cons dc rest ih =>
    rw [runDocs_cons] at h
    cases hstep : step cfg s dc with
    | error e =>
      rw [hstep] at h
      cases h
    | ok s1 =>
      rw [hstep, ok_bind] at h
      exact ih h (step_fits_ge cfg dc hstep hs)

/-! ## Claim theorems -/

/-- C1, counterexample: with a two-parameter model and `update_every = 2`,
four qualifying events produce fits at sample counts 2 and 3 — a fit
occurs at count 3, which is not of the form `N + j·k = 2 + 2j`, and no fit
occurs at count 4 even though `4 = N + k`.  This refutes the claim that
fits are performed exactly at sample counts `N, N+k, N+2k, …`. -/
theorem C1_counterexample :
    (runDocs cfgA (docsA.map LFDoc.event) (initState cfgA)).map (·.fits) =
      .ok [2, 3] ∧ ∀ j : ℕ, 2 + 2 * j ≠ 3 := by
  constructor
  · rfl
  · intro j
    omega

/-- C1, amended: with `update_every = k ≥ 1` and `N` free parameters, a
run of qualifying events performs fits exactly at the sample counts `i`
with `i ≥ N` and (`i = N` or `(i − 1) mod k = 0`), i.e. at `N` and then at
every count exceeding `N` that is congruent to 1 modulo `k` — in addition
to any forced fit at `stop`. -/
theorem C1_fit_cadence (cfg : LFConfig) (docs : List (List (String × ℚ)))
    (k : Nat) (hk : cfg.updateEvery = some k) (hk1 : 1 ≤ k)
    (hq : ∀ d ∈ docs, qualifies cfg d) :
    ∃ t, runDocs cfg (docs.map LFDoc.event) (initState cfg) = .ok t ∧
      t.fits = ((List.range docs.length).map (· + 1)).filter
        (fires cfg.paramNames.length k) := by
  obtain ⟨t, hrun, _, hfits, _⟩ :=
    runQual_fits cfg k hk docs (initState cfg) hq (keysSub_init cfg)
      (Or.inl hk1)
  refine ⟨t, hrun, ?_⟩
  rw [hfits, schedFrom_eq_filter]
  have h0 : (initState cfg).ydata.length = 0 := rfl
  have hf : (initState cfg).fits = [] := rfl
  rw [h0, hf]
  have harg : (fun j => 0 + j + 1) = (fun j : ℕ => j + 1) := by
    funext j
    omega
  rw [harg]
  rfl

/-- Witness for `C1_fit_cadence` at the concrete configuration `cfgA`
(two parameters, `update_every = 2`) and the four events `docsA`. -/
theorem C1_fit_cadence_witness :
    cfgA.updateEvery = some 2 ∧ (1 ≤ 2) ∧ (∀ d ∈ docsA, qualifies cfgA d) ∧
    ∃ t, runDocs cfgA (docsA.map LFDoc.event) (initState cfgA) = .ok t ∧
      t.fits = ((List.range docsA.length).map (· + 1)).filter
        (fires cfgA.paramNames.length 2) :=
  ⟨rfl, by omega, by decide,
    C1_fit_cadence cfgA docsA 2 rfl (by omega) (by decide)⟩

/-- C4: for a model with `N ≥ 1` free parameters and `update_every` not
`None`, the coordinator has performed exactly one fit — at sample count
`N` — the moment the `N`-th qualifying event is received, and in any run
the external fit capability is only ever invoked with at least `N`
accumulated samples. -/
theorem C4_first_fit (cfg : LFConfig) (docs : List (List (String × ℚ)))
    (k : Nat) (hk : cfg.updateEvery = some k)
    (hN : 1 ≤ cfg.paramNames.length)
    (hlen : docs.length = cfg.paramNames.length)
    (hq : ∀ d ∈ docs, qualifies cfg d) :
    (∃ t, runDocs cfg (docs.map LFDoc.event) (initState cfg) = .ok t ∧
      t.fits = [cfg.paramNames.length]) ∧
    ∀ (tr : List LFDoc) (t : LFState),
      runDocs cfg tr (initState cfg) = .ok t →
      ∀ m ∈ t.fits, cfg.paramNames.length ≤ m := by
  constructor
  · obtain ⟨t, hrun, _, hfits, _⟩ :=
      runQual_fits cfg k hk docs (initState cfg) hq (keysSub_init cfg)
        (Or.inr (by
          rw [hlen]
          show 0 + cfg.paramNames.length ≤ cfg.paramNames.length
          omega))
    refine ⟨t, hrun, ?_⟩
    rw [hfits]
    have h0 : (initState cfg).ydata.length = 0 := rfl
    have hf : (initState cfg).fits = [] := rfl
    rw [h0, hf, schedFrom_below _ _ _ _ (by omega)]
    rw [if_pos ⟨by omega, by omega⟩]
    rfl
  · intro tr t h
    exact runDocs_fits_ge cfg tr h (by intro m hm; cases hm)

/-- Witness for `C4_first_fit`: `cfgA` has two parameters; after the two
qualifying events `docsA.take 2` exactly one fit, at count 2, has been
performed. -/
theorem C4_first_fit_witness :
    cfgA.updateEvery = some 2 ∧ 1 ≤ cfgA.paramNames.length ∧
    (docsA.take 2).length = cfgA.paramNames.length ∧
    ∃ t, runDocs cfgA ((docsA.take 2).map LFDoc.event) (initState cfgA) =
      .ok t ∧ t.fits = [cfgA.paramNames.length] :=
  ⟨rfl, by decide, by decide,
    (C4_first_fit cfgA (docsA.take 2) 2 rfl (by decide) (by decide)
      (by decide)).1⟩

theorem cadence_zero (cfg : LFConfig) (s : LFState)
    (hk : cfg.updateEvery = some 0)
    (h : cfg.paramNames.length < s.ydata.length) :
    cadence cfg s = .error .zeroDivisionError := by
  unfold cadence
  rw [hk]
  have h1 : ¬ (s.ydata.length < cfg.paramNames.length) := by omega
  have h2 : ¬ (s.ydata.length = cfg.paramNames.length) := by omega
  simp [h1, h2]

/-- C10: with `update_every = 0`, a qualifying event that brings the
sample count strictly past the number of free parameters makes the
cadence check evaluate `(i - 1) % 0`, raising an uncaught
`ZeroDivisionError`. -/
theorem C10_zero_update_every (cfg : LFConfig) (d : List (String × ℚ))
    (s : LFState) (hk : cfg.updateEvery = some 0) (hkeys : KeysSub cfg s)
    (hq : qualifies cfg d)
    (hlen : cfg.paramNames.length ≤ s.ydata.length) :
    eventDoc cfg d s = .error .zeroDivisionError := by
  rw [eventDoc_qual cfg d s hkeys hq]
  exact cadence_zero cfg (cached cfg d s) hk
    (by rw [(cached_shape cfg d s).1]; omega)

/-- Witness for `C10_zero_update_every`: `cfgZ` (two free parameters,
`update_every = 0`) at the two-sample state `sZ` raises on the next
qualifying event. -/
theorem C10_zero_update_every_witness :
    cfgZ.updateEvery = some 0 ∧ KeysSub cfgZ sZ ∧
    qualifies cfgZ [("motor", 2), ("det", 3)] ∧
    cfgZ.paramNames.length ≤ sZ.ydata.length ∧
    eventDoc cfgZ [("motor", 2), ("det", 3)] sZ =
      .error .zeroDivisionError :=
  ⟨rfl, by decide, by decide, by decide,
    C10_zero_update_every cfgZ [("motor", 2), ("det", 3)] sZ rfl
      (by decide) (by decide) (by decide)⟩

/-- C8: attempting a fit with fewer accumulated samples than free
parameters only emits a warning — the state (the stored result included)
is otherwise untouched and no exception is raised, since `update_fit` is
total. -/
theorem C8_insufficient_data (cfg : LFConfig) (s : LFState)
    (h : s.ydata.length < cfg.paramNames.length) :
    update_fit cfg s = { s with warnings := s.warnings + 1 } := by
  simp [update_fit, h]

/-- Witness for `C8_insufficient_data` at the empty initial state of
`cfgA`. -/
theorem C8_insufficient_data_witness :
    (initState cfgA).ydata.length < cfgA.paramNames.length ∧
    update_fit cfgA (initState cfgA) =
      { initState cfgA with warnings := (initState cfgA).warnings + 1 } :=
  ⟨by decide, C8_insufficient_data cfgA (initState cfgA) (by decide)⟩

/-- C3, counterexample: an event document carrying the dependent field
`det` but missing the bound independent-variable field `motor` makes the
event transition raise a `KeyError` — it is not tolerated. -/
theorem C3_counterexample :
    eventDoc cfgA [("det", 1)] (initState cfgA) = .error .keyError := rfl

/-- C3, amended: an event document lacking the dependent-variable field
is ignored (no append, no state change); but a document that carries the
dependent field while omitting a bound independent-variable field raises
a `KeyError` rather than being tolerated. -/
theorem C3_missing_field (cfg : LFConfig) (d : List (String × ℚ))
    (s : LFState) :
    (lookup d cfg.y = none → eventDoc cfg d s = .ok s) ∧
    ((lookup d cfg.y).isSome = true →
      (∃ kv ∈ cfg.independentVars, lookup d kv.2 = none) →
      eventDoc cfg d s = .error .keyError) := by
  constructor
  · intro h
    unfold eventDoc
    rw [h]
  · intro hy hmiss
    obtain ⟨y, hy'⟩ := Option.isSome_iff_exists.mp hy
    unfold eventDoc
    rw [hy', idv_mapM_err d cfg.independentVars hmiss]
    rfl

/-- Witness for `C3_missing_field`: a document without `det` is ignored;
a document with `det` but without `motor` raises `KeyError`. -/
theorem C3_missing_field_witness :
    eventDoc cfgA [("motor", 0)] (initState cfgA) = .ok (initState cfgA) ∧
    eventDoc cfgA [("det", 1)] (initState cfgA) = .error .keyError :=
  ⟨(C3_missing_field cfgA [("motor", 0)] (initState cfgA)).1 rfl,
    (C3_missing_field cfgA [("det", 1)] (initState cfgA)).2 rfl
      ⟨("x", "motor"), by decide, rfl⟩⟩

theorem calcStats_crossing_fields (x y : List ℚ) (f : Stats)
    (ec : Option Nat) :
    (cenList x (removeBg x y ec) (midLine (removeBg x y ec)) = [] →
      (calcStats x y f ec).cen = f.cen ∧
      (calcStats x y f ec).crossings = f.crossings ∧
      (calcStats x y f ec).fwhm = f.fwhm) ∧
    (cenList x (removeBg x y ec) (midLine (removeBg x y ec)) ≠ [] →
      (calcStats x y f ec).cen =
        some (mean (cenList x (removeBg x y ec)
          (midLine (removeBg x y ec)))) ∧
      (calcStats x y f ec).crossings =
        some (cenList x (removeBg x y ec) (midLine (removeBg x y ec))) ∧
      (calcStats x y f ec).fwhm =
        (if 2 ≤ (cenList x (removeBg x y ec)
            (midLine (removeBg x y ec))).length
          then some |(cenList x (removeBg x y ec)
              (midLine (removeBg x y ec))).getLastD 0 -
            (cenList x (removeBg x y ec)
              (midLine (removeBg x y ec))).headD 0|
          else f.fwhm)) := by
  cases ec with
  | none =>
    unfold calcStats
    dsimp only
    constructor
    · intro hcl
      rw [if_pos hcl]
      exact ⟨rfl, rfl, rfl⟩
    · intro hcl
      rw [if_neg hcl]
      by_cases h2 : 2 ≤ (cenList x (removeBg x y none)
          (midLine (removeBg x y none))).length
      · rw [if_pos h2]
        exact ⟨rfl, rfl, by rw [if_pos h2]⟩
      · rw [if_neg h2]
        exact ⟨rfl, rfl, by rw [if_neg h2]⟩
  | some e =>
    unfold calcStats
    dsimp only
    constructor
    · intro hcl
      rw [if_pos hcl]
      exact ⟨rfl, rfl, rfl⟩
    · intro hcl
      rw [if_neg hcl]
      by_cases h2 : 2 ≤ (cenList x (removeBg x y (some e))
          (midLine (removeBg x y (some e)))).length
      · rw [if_pos h2]
        exact ⟨rfl, rfl, by rw [if_pos h2]⟩
      · rw [if_neg h2]
        exact ⟨rfl, rfl, by rw [if_neg h2]⟩

/-- C6: on non-empty data, whenever at least one half-max crossing exists
the computed `cen` is the arithmetic mean of all crossing x-coordinates
and `crossings` holds exactly those coordinates; with at least two
crossings `fwhm` is the absolute distance between the last and the first;
and with exactly one crossing `fwhm` stays unset while `cen` is defined. -/
theorem C6_cen_fwhm (x y : List ℚ) (ec : Option Nat) (hy : y ≠ []) :
    (cenList x (removeBg x y ec) (midLine (removeBg x y ec)) ≠ [] →
      (calcStats x y emptyStats ec).cen =
        some (mean (cenList x (removeBg x y ec)
          (midLine (removeBg x y ec)))) ∧
      (calcStats x y emptyStats ec).crossings =
        some (cenList x (removeBg x y ec) (midLine (removeBg x y ec)))) ∧
    (2 ≤ (cenList x (removeBg x y ec)
        (midLine (removeBg x y ec))).length →
      (calcStats x y emptyStats ec).fwhm =
        some |(cenList x (removeBg x y ec)
            (midLine (removeBg x y ec))).getLastD 0 -
          (cenList x (removeBg x y ec)
            (midLine (removeBg x y ec))).headD 0|) ∧
    ((cenList x (removeBg x y ec)
        (midLine (removeBg x y ec))).length = 1 →
      (calcStats x y emptyStats ec).fwhm = none ∧
      (calcStats x y emptyStats ec).cen ≠ none) := by
  obtain ⟨hempty, hfull⟩ := calcStats_crossing_fields x y emptyStats ec
  refine ⟨fun hcl => ⟨(hfull hcl).1, (hfull hcl).2.1⟩, ?_, ?_⟩
  · intro h2
    have hcl : cenList x (removeBg x y ec) (midLine (removeBg x y ec)) ≠ [] := by
      intro h
      rw [h] at h2
      simp at h2
    rw [(hfull hcl).2.2, if_pos h2]
  · intro h1
    have hcl : cenList x (removeBg x y ec) (midLine (removeBg x y ec)) ≠ [] := by
      intro h
      rw [h] at h1
      simp at h1
    have h2 : ¬ (2 ≤ (cenList x (removeBg x y ec)
        (midLine (removeBg x y ec))).length) := by omega
    constructor
    · rw [(hfull hcl).2.2, if_neg h2]
      rfl
    · rw [(hfull hcl).1]
      simp

/-- Witness for `C6_cen_fwhm`: the spec's symmetric peak (two crossings:
cen is their mean, fwhm their distance) and a single-edge ramp (one
crossing: fwhm unset, cen defined). -/
theorem C6_cen_fwhm_witness :
    ([0, 1, 4, 9, 4, 1, 0] : List ℚ) ≠ [] ∧
    (calcStats [0, 1, 2, 3, 4, 5, 6] [0, 1, 4, 9, 4, 1, 0]
      emptyStats none).cen = some 3 ∧
    (calcStats [0, 1, 2, 3, 4, 5, 6] [0, 1, 4, 9, 4, 1, 0]
      emptyStats none).fwhm = some (9 / 5) ∧
    (calcStats [0, 1] [0, 1] emptyStats none).fwhm = none ∧
    (calcStats [0, 1] [0, 1] emptyStats none).cen ≠ none := by
  have hcl7 : cenList [0, 1, 2, 3, 4, 5, 6]
      (removeBg [0, 1, 2, 3, 4, 5, 6] [0, 1, 4, 9, 4, 1, 0] none)
      (midLine (removeBg [0, 1, 2, 3, 4, 5, 6] [0, 1, 4, 9, 4, 1, 0] none)) =
      [21 / 10, 39 / 10] := by
    norm_num [removeBg, cenList, crossIdx, midLine, listMax, listMin,
      max_def, min_def, List.range_succ]
  have hcl1 : cenList [0, 1] (removeBg [0, 1] [0, 1] none)
      (midLine (removeBg [0, 1] [0, 1] none)) = [1 / 2] := by
    norm_num [removeBg, cenList, crossIdx, midLine, listMax, listMin,
      max_def, min_def, List.range_succ]
  have h7 := C6_cen_fwhm [0, 1, 2, 3, 4, 5, 6] [0, 1, 4, 9, 4, 1, 0] none
    (by simp)
  have h1 := C6_cen_fwhm [0, 1] [0, 1] none (by simp)
  refine ⟨by simp, ?_, ?_, ?_, ?_⟩
  · rw [(h7.1 (by rw [hcl7]; simp)).1, hcl7]
    norm_num [mean]
  · rw [h7.2.1 (by rw [hcl7]; simp), hcl7]
    norm_num
  · exact (h1.2.2 (by rw [hcl1]; simp)).1
  · exact (h1.2.2 (by rw [hcl1]; simp)).2

/-- C9: the Centroid Primitive on a 1-D weight array is the classic
discrete centroid — the sum of `weight[i] * i` over the total weight —
and on `[0, 1, 1, 0]` it returns `3/2`. -/
theorem C9_center_of_mass (w : List ℚ) (hw : w.sum ≠ 0) :
    center_of_mass w =
      ((List.range w.length).map (fun i => w.getD i 0 * (i : ℚ))).sum /
        w.sum ∧
    center_of_mass [0, 1, 1, 0] = 3 / 2 := by
  constructor
  · unfold center_of_mass
    dsimp only
    congr 1
    congr 1
    apply List.ext_getElem
    · simp
    · intro i h1 h2
      have hi : i < w.length := by simpa using h2
      simp [List.getElem_zipWith, List.getElem_map, List.getElem_range,
        List.getD_eq_getElem?_getD, List.getElem?_eq_getElem hi]
  · norm_num [center_of_mass, List.range_succ]

/-- Witness for `C9_center_of_mass` at the spec's example `[0, 1, 1, 0]`
(total weight 2 ≠ 0, centroid 3/2). -/
theorem C9_center_of_mass_witness :
    ([0, 1, 1, 0] : List ℚ).sum ≠ 0 ∧
    center_of_mass [0, 1, 1, 0] = 3 / 2 := by
  have h : ([0, 1, 1, 0] : List ℚ).sum ≠ 0 := by norm_num
  exact ⟨h, (C9_center_of_mass [0, 1, 1, 0] h).2⟩

theorem calcStats_lin_bkg (x y : List ℚ) (f : Stats) (e : Nat) :
    (calcStats x y f (some e)).lin_bkg = some (bgLine x y e) := by
  unfold calcStats
  split
  · rename_i heq
    cases heq
  · rename_i u heq
    cases heq
    dsimp only
    split
    · rfl
    · split <;> rfl

theorem eventDoc_skip {cfg : LFConfig} {d : List (String × ℚ)}
    {s : LFState} (h : lookup d cfg.y = none) : eventDoc cfg d s = .ok s := by
  unfold eventDoc
  rw [h]

theorem runDocs_append (cfg : LFConfig) (l1 l2 : List LFDoc) (s : LFState) :
    runDocs cfg (l1 ++ l2) s = runDocs cfg l1 s >>= runDocs cfg l2 := by
  induction l1 generalizing s with
  | nil => rfl
  | cons d rest ih =>
    rw [List.cons_append, runDocs_cons, runDocs_cons]
    cases hstep : step cfg s d with
    | error e => rfl
    | ok s1 =>
      show runDocs cfg (rest ++ l2) s1 = runDocs cfg rest s1 >>= runDocs cfg l2
      exact ih s1

theorem update_fit_resultCurrent (cfg : LFConfig) (s : LFState)
    (h : s.stale = true) : ResultCurrent (update_fit cfg s) := by
  unfold update_fit ResultCurrent
  by_cases hlt : s.ydata.length < cfg.paramNames.length
  · left
    simpa [hlt] using h
  · right
    left
    simp [hlt]

theorem run_events_resultCurrent (cfg : LFConfig)
    (docs : List (List (String × ℚ))) (s t : LFState) (hkeys : KeysSub cfg s)
    (hInv : ResultCurrent s)
    (hrun : runDocs cfg (docs.map LFDoc.event) s = .ok t) :
    ResultCurrent t ∧ KeysSub cfg t ∧
      t.ydata.length = s.ydata.length +
        (docs.filter (fun d => decide (qualifies cfg d))).length := by
  induction docs generalizing s with
  | nil =>
    cases hrun
    exact ⟨hInv, hkeys, by simp⟩
  | cons d rest ih =>
    rw [List.map_cons, runDocs_cons] at hrun
    rw [show step cfg s (.event d) = eventDoc cfg d s from rfl] at hrun
    by_cases hq : qualifies cfg d
    · rw [eventDoc_qual cfg d s hkeys hq] at hrun
      cases hcad : cadence cfg (cached cfg d s) with
      | error e =>
        rw [hcad] at hrun
        cases hrun
      | ok s1 =>
        rw [hcad, ok_bind] at hrun
        obtain ⟨hclen, hcfst, hcstale, _, _, _⟩ := cached_shape cfg d s
        have hs1 : s1.ydata.length = s.ydata.length + 1 ∧ KeysSub cfg s1 ∧
            ResultCurrent s1 := by
          rcases cadence_ok_cases hcad with h1 | h1
          · subst h1
            exact ⟨hclen, keysSub_of_fst_eq hcfst hkeys, Or.inl hcstale⟩
          · subst h1
            obtain ⟨hud, huy⟩ := update_fit_data cfg (cached cfg d s)
            refine ⟨by rw [huy]; exact hclen, ?_, ?_⟩
            · exact keysSub_of_fst_eq (by rw [hud, hcfst]) hkeys
            · exact update_fit_resultCurrent cfg _ hcstale
        obtain ⟨hI, hK, hL⟩ := ih s1 hs1.2.1 hs1.2.2 hrun
        refine ⟨hI, hK, ?_⟩
        rw [hL, hs1.1, List.filter_cons, if_pos (by simpa using hq)]
        simp
        omega
    · by_cases hy' : (lookup d cfg.y).isSome = true
      · unfold qualifies at hq
        push_neg at hq
        obtain ⟨kv, hkv, hnone⟩ := hq hy'
        have hnone' : lookup d kv.2 = none := by
          simpa [Option.not_isSome_iff_eq_none] using hnone
        obtain ⟨y0, hy0⟩ := Option.isSome_iff_exists.mp hy'
        have herr : eventDoc cfg d s = .error .keyError := by
          unfold eventDoc
          rw [hy0, idv_mapM_err d cfg.independentVars ⟨kv, hkv, hnone'⟩]
          rfl
        rw [herr] at hrun
        cases hrun
      · have hy : lookup d cfg.y = none := by
          simpa [Option.not_isSome_iff_eq_none] using hy'
        rw [eventDoc_skip hy, ok_bind] at hrun
        obtain ⟨hI, hK, hL⟩ := ih s hkeys hInv hrun
        refine ⟨hI, hK, ?_⟩
        rw [hL, List.filter_cons, if_neg (by simpa using hq)]

/-- C5: after `stop` of a run that received at least `N ≥ 1` qualifying
events, the stored fit result holds exactly the full accumulated arrays —
all samples up to and including the last event — whether or not the last
event count aligned with the cadence (stop performs one final fit whenever
the staleness flag is set). -/
theorem C5_stop_reflects_all (cfg : LFConfig)
    (docs : List (List (String × ℚ))) (t : LFState)
    (hN : 1 ≤ cfg.paramNames.length)
    (hq : cfg.paramNames.length ≤
      (docs.filter (fun d => decide (qualifies cfg d))).length)
    (hrun : runDocs cfg (LFDoc.start :: docs.map LFDoc.event ++ [LFDoc.stop])
      (initState cfg) = .ok t) :
    t.result = some (t.ydata, t.independentVarsData) ∧
      cfg.paramNames.length ≤ t.ydata.length := by
  rw [show LFDoc.start :: docs.map LFDoc.event ++ [LFDoc.stop] =
    (LFDoc.start :: docs.map LFDoc.event) ++ [LFDoc.stop] from rfl] at hrun
  rw [runDocs_append, runDocs_cons] at hrun
  rw [show step cfg (initState cfg) LFDoc.start =
    .ok (startDoc (initState cfg)) from rfl] at hrun
  rw [ok_bind] at hrun
  have hkeys0 : KeysSub cfg (startDoc (initState cfg)) := by
    refine keysSub_of_fst_eq ?_ (keysSub_init cfg)
    show ((initState cfg).independentVarsData.map
      (fun kv => (kv.1, ([] : List ℚ)))).map Prod.fst = _
    rw [List.map_map]
    rfl
  have hInv0 : ResultCurrent (startDoc (initState cfg)) :=
    Or.inr (Or.inr rfl)
  cases hev : runDocs cfg (docs.map LFDoc.event) (startDoc (initState cfg)) with
  | error e =>
    rw [hev] at hrun
    cases hrun
  | ok u =>
    rw [hev, ok_bind] at hrun
    obtain ⟨hInv, _, hlen⟩ :=
      run_events_resultCurrent cfg docs _ u hkeys0 hInv0 hev
    have hlenN : cfg.paramNames.length ≤ u.ydata.length := by
      rw [hlen]
      simpa [startDoc, reset, initState] using hq
    have ht : t = stopDoc cfg u := by
      have : runDocs cfg [LFDoc.stop] u = .ok (stopDoc cfg u) := rfl
      rw [this] at hrun
      exact (Except.ok.inj hrun).symm
    subst ht
    unfold stopDoc
    by_cases hst : u.stale = true
    · rw [if_pos hst, update_fit_of_ge cfg u hlenN]
      exact ⟨rfl, hlenN⟩
    · rw [if_neg hst]
      rcases hInv with h1 | h1 | h1
      · exact absurd h1 hst
      · exact ⟨h1, hlenN⟩
      · exfalso
        rw [h1] at hlenN
        simp only [List.length_nil, Nat.le_zero] at hlenN
        omega

theorem appendIdv_len {idv : List (String × ℚ)}
    {l l' : List (String × List ℚ)} {n : Nat}
    (happ : appendIdv idv l = .ok l') (hl : ∀ kv ∈ l, kv.2.length = n) :
    ∀ kv ∈ l', kv.2.length = n + 1 := by
  induction l generalizing l' with
  | nil =>
    cases happ
    intro kv hkv
    cases hkv
  | cons hd tl ih =>
    obtain ⟨k, v⟩ := hd
    unfold appendIdv at happ
    cases hk : getKey idv k with
    | error e =>
      rw [hk] at happ
      cases happ
    | ok x =>
      rw [hk] at happ
      have happ' : (appendIdv idv tl >>= fun rest' =>
          (.ok ((k, v ++ [x]) :: rest') : Except PyError _)) = .ok l' := happ
      cases hrest : appendIdv idv tl with
      | error e =>
        rw [hrest] at happ'
        cases happ'
      | ok rest' =>
        rw [hrest] at happ'
        have hl' : l' = (k, v ++ [x]) :: rest' := (Except.ok.inj happ').symm
        subst hl'
        intro kv hkv
        rcases List.mem_cons.mp hkv with heq | hmem
        · subst heq
          have := hl (k, v) (by simp)
          simp at this ⊢
          omega
        · exact ih hrest (fun kv hkv => hl kv (by simp [hkv])) kv hmem

theorem eqLen_of_same {s t : LFState}
    (hd : t.independentVarsData = s.independentVarsData)
    (hy : t.ydata = s.ydata) (h : EqLen s) : EqLen t := by
  intro kv hkv
  rw [hd] at hkv
  rw [hy]
  exact h kv hkv

/-- C7: all per-field sample series tracked by the coordinator stay
exactly as long as `ydata` across every transition — `start`, `stop` and
`event` (qualifying or not) preserve the equal-length invariant, a
qualifying event appending exactly one value to each series, and
rebinding the independent variables re-establishes it. -/
theorem C7_equal_lengths :
    (∀ (cfg : LFConfig) (dc : LFDoc) (s t : LFState),
      EqLen s → step cfg s dc = .ok t → EqLen t) ∧
    (∀ (roles : List String) (val : List (String × String)) (s t : LFState),
      rebind roles val s = .ok t → EqLen t) := by
  constructor
  · intro cfg dc s t hs hstep
    cases dc with
    | start =>
      cases hstep
      intro kv hkv
      obtain ⟨kv', _, heq⟩ := List.mem_map.mp hkv
      rw [← heq]
      rfl
    | stop =>
      cases hstep
      unfold stopDoc
      by_cases hst : s.stale = true
      · rw [if_pos hst]
        obtain ⟨hd, hy⟩ := update_fit_data cfg s
        exact eqLen_of_same hd hy hs
      · rw [if_neg hst]
        exact hs
    | event d =>
      replace hstep : eventDoc cfg d s = Except.ok t := hstep
      unfold eventDoc at hstep
      cases hy : lookup d cfg.y with
      | none =>
        rw [hy] at hstep
        cases hstep
        exact hs
      | some y =>
        rw [hy] at hstep
        cases hmap : (cfg.independentVars.mapM (fun kv => do
            let x ← getKey d kv.2
            pure (kv.1, x)) : Except PyError (List (String × ℚ))) with
        | error e =>
          rw [hmap] at hstep
          cases hstep
        | ok idv =>
          rw [hmap] at hstep
          have hstep' : (update_caches y idv s >>= fun s' =>
              cadence cfg { s' with stale := true }) = .ok t := hstep
          unfold update_caches at hstep'
          cases happ : appendIdv idv s.independentVarsData with
          | error e =>
            rw [happ] at hstep'
            cases hstep'
          | ok dat =>
            rw [happ] at hstep'
            have hcad : cadence cfg
                { ydata := s.ydata ++ [y], independentVarsData := dat,
                  stale := true, result := s.result, fits := s.fits,
                  warnings := s.warnings } = .ok t := hstep'
            have hdat : ∀ kv ∈ dat, kv.2.length = s.ydata.length + 1 :=
              appendIdv_len happ hs
            have hc : EqLen
                { ydata := s.ydata ++ [y], independentVarsData := dat,
                  stale := true, result := s.result, fits := s.fits,
                  warnings := s.warnings } := by
              intro kv hkv
              simp only [List.length_append, List.length_cons,
                List.length_nil]
              rw [hdat kv hkv]
            rcases cadence_ok_cases hcad with h1 | h1
            · subst h1
              exact hc
            · subst h1
              obtain ⟨hd, hy'⟩ := update_fit_data cfg _
              exact eqLen_of_same hd hy' hc
  · intro roles val s t hre
    unfold rebind at hre
    split at hre
    · have ht : t = reset { s with
        independentVarsData := val.map (fun kv => (kv.1, [])) } :=
        (Except.ok.inj hre).symm
      subst ht
      intro kv hkv
      obtain ⟨kv', _, heq⟩ := List.mem_map.mp hkv
      rw [← heq]
      rfl
    · cases hre

/-- Witness for `C7_equal_lengths`: the invariant holds at the initial
state of `cfgA` and is carried through its first qualifying event. -/
theorem C7_equal_lengths_witness :
    EqLen (initState cfgA) ∧
    step cfgA (initState cfgA) (.event [("motor", 0), ("det", 1)]) =
      .ok sA1 ∧
    EqLen sA1 :=
  ⟨by decide, rfl,
    (C7_equal_lengths).1 cfgA (.event [("motor", 0), ("det", 1)])
      (initState cfgA) sA1 (by decide) rfl⟩

/-- Witness for `C5_stop_reflects_all`: the full run `start`, `docsA`,
`stop` on `cfgA` ends with the result holding all four samples. -/
theorem C5_stop_reflects_all_witness :
    1 ≤ cfgA.paramNames.length ∧
    cfgA.paramNames.length ≤
      (docsA.filter (fun d => decide (qualifies cfgA d))).length ∧
    sA5.result = some (sA5.ydata, sA5.independentVarsData) ∧
      cfgA.paramNames.length ≤ sA5.ydata.length :=
  ⟨by decide, by decide,
    C5_stop_reflects_all cfgA docsA sA5 (by decide) (by decide) rfl⟩

/-- C2: `_calc_stats` does record the background line's slope and
intercept under the `lin_bkg` key, but `__getitem__("lin_bkg")` raises
`KeyError`, because `_stats_fields` misspells the key as `lin_bnk` —
`lin_bkg` is not a valid stats-field key on the instance. -/
theorem C2_lin_bkg_lookup :
    (calcStats [0, 1, 2, 3] [5, 1, 1, 5] emptyStats (some 2)).lin_bkg =
      some (0, 3) ∧
    getItem (calcStats [0, 1, 2, 3] [5, 1, 1, 5] emptyStats (some 2))
      "lin_bkg" = .error .keyError ∧
    "lin_bkg" ∉ statsFieldKeys ∧ "lin_bnk" ∈ statsFieldKeys := by
  refine ⟨?_, rfl, by decide, by decide⟩
  rw [calcStats_lin_bkg]
  norm_num [bgLine, mean]

end Fitting
